import Mathlib

/-!
Verification of the wg-meshconf database manager
(`wg_meshconf/database_manager.py`).

The development shallowly embeds the data model and the operations of
`DatabaseManager`: the CSV cell coercion rules of `read_database` /
`write_database`, the `updatepeer` partial update, the `init` PSK
provisioning pass, the `calculate_psks` pre-shared-key assignment engine
and the `genconfig` document generator.  Python strings, ints, lists and
`None` become `String`, `Int`, `List` and `Option`; the random key source
`wireguard.genkey()` becomes an explicit stream `gen : Nat → String`
consumed at an explicit counter.
-/

namespace WgMeshconf

/-- Split a character list at every occurrence of the separator, mirroring
Python `str.split(sep)` for a one-character separator: the empty input
yields a single empty field, and a trailing separator yields a trailing
empty field. -/
def splitChAux (sep : Char) : List Char → List Char → List String
  | [], acc => [String.mk acc.reverse]
  | c :: rest, acc =>
    if c = sep then String.mk acc.reverse :: splitChAux sep rest []
    else splitChAux sep rest (c :: acc)

/-- Python `s.split(sep)` for a one-character separator. -/
def splitCh (sep : Char) (s : String) : List String :=
  splitChAux sep s.data []

/-- Python `s.split(",")`, the list-cell and `PresharedKeys` splitter. -/
def pysplit (s : String) : List String := splitCh ',' s

/-- Python `sep.join(l)`. -/
def joinSep (sep : String) : List String → String
  | [] => ""
  | [s] => s
  | s :: rest => s ++ (sep ++ joinSep sep rest)

/-- Python `",".join(l)`, used by `write_database` for list-typed values. -/
def pyjoin (l : List String) : String := joinSep (",") l

/-- Python `", ".join(l)`, used by `genconfig` for `Address` and
`AllowedIPs` lines. -/
def joinCS (l : List String) : String := joinSep (", ") l

/-- Little-endian decimal digits of a number.  The first argument is fuel
bounding the recursion depth; any fuel at least the value itself is enough,
and the recursion actually stops after one step per digit. -/
def natDigitsRevFuel : Nat → Nat → List Char
  | 0, _ => []
  | _ + 1, 0 => []
  | fuel + 1, n + 1 => Char.ofNat (48 + (n + 1) % 10) :: natDigitsRevFuel fuel ((n + 1) / 10)

/-- Decimal rendering of a natural number, exactly as Python `str` writes
it. -/
def natStr (n : Nat) : String :=
  if n = 0 then "0" else String.mk (natDigitsRevFuel n n).reverse

/-- Python `str(i)` for an int. -/
def pyIntStr (i : Int) : String :=
  if i < 0 then "-" ++ natStr i.natAbs else natStr i.toNat

/-- Numeric value of a list of decimal digit characters. -/
def digitsVal (l : List Char) : Nat :=
  l.foldl (fun a c => a * 10 + (c.toNat - 48)) 0

/-- Parse a nonempty all-digit character list, the digit core of Python
`int()`. -/
def parseNatDigits (l : List Char) : Option Nat :=
  if l ≠ [] ∧ l.all Char.isDigit then some (digitsVal l) else none

/-- Python `int(s)` on the strings this program stores: an optional sign
followed by decimal digits. -/
def parsePyInt (s : String) : Option Int :=
  match s.data with
  | [] => none
  | c :: rest =>
    if c = '-' then (parseNatDigits rest).map (fun n => -(Int.ofNat n))
    else if c = '+' then (parseNatDigits rest).map (fun n => Int.ofNat n)
    else (parseNatDigits (c :: rest)).map (fun n => Int.ofNat n)

/-- Python `str` of a bool: `str(True)` is the capitalized `True`. -/
def pyBoolStr (b : Bool) : String := if b then "True" else "False"

/-- Python `"{}".format(x)` where `x` is an optional string: `None` renders
as the literal text `None`. -/
def pyOptStr (v : Option String) : String :=
  match v with
  | some s => s
  | none => "None"

/-- Python `"{}".format(x)` where `x` is an optional int: `None` renders as
the literal text `None`. -/
def pyOptIntStr (v : Option Int) : String :=
  match v with
  | some i => pyIntStr i
  | none => "None"

/- Round-trip facts about the string utilities. -/

theorem string_mk_data (s : String) : String.mk s.data = s := rfl

theorem string_mk_append (l m : List Char) :
    String.mk l ++ String.mk m = String.mk (l ++ m) := rfl

theorem splitChAux_ne_nil (sep : Char) (l acc : List Char) :
    splitChAux sep l acc ≠ [] := by
  induction l generalizing acc with
  | nil => simp [splitChAux]
  | cons c rest ih =>
    simp only [splitChAux]
    split
    · simp
    · exact ih _

theorem pyjoin_cons (s : String) (L : List String) (h : L ≠ []) :
    pyjoin (s :: L) = s ++ ("," ++ pyjoin L) := by
  cases L with
  | nil => exact absurd rfl h
  | cons t M => rfl

theorem pyjoin_splitChAux (l acc : List Char) :
    pyjoin (splitChAux ',' l acc) = String.mk (acc.reverse ++ l) := by
  induction l generalizing acc with
  | nil => simp [splitChAux, pyjoin, joinSep]
  | cons c rest ih =>
    simp only [splitChAux]
    split
    · rename_i hc
      subst hc
      rw [pyjoin_cons _ _ (splitChAux_ne_nil _ _ _), ih []]
      show String.mk acc.reverse ++ (String.mk [','] ++ String.mk ([].reverse ++ rest)) = _
      rw [string_mk_append, string_mk_append]
      simp
    · rw [ih (c :: acc)]
      simp

/-- Python joins back what it split: `",".join(s.split(","))` is `s` for
every string `s`. -/
theorem pyjoin_pysplit (s : String) : pyjoin (pysplit s) = s := by
  have h := pyjoin_splitChAux s.data []
  simpa [pysplit, splitCh] using h

theorem splitChAux_no_sep (l acc : List Char) (h : ',' ∉ l) :
    splitChAux ',' l acc = [String.mk (acc.reverse ++ l)] := by
  induction l generalizing acc with
  | nil => simp [splitChAux]
  | cons c rest ih =>
    simp only [splitChAux]
    rw [if_neg (by intro hc; exact h (hc ▸ List.mem_cons_self c rest))]
    rw [ih (c :: acc) (fun hm => h (List.mem_cons_of_mem c hm))]
    simp

theorem splitChAux_append_sep (xs ys acc : List Char) (h : ',' ∉ xs) :
    splitChAux ',' (xs ++ ',' :: ys) acc =
      String.mk (acc.reverse ++ xs) :: splitChAux ',' ys [] := by
  induction xs generalizing acc with
  | nil => simp [splitChAux]
  | cons c rest ih =>
    simp only [List.cons_append, splitChAux]
    rw [if_neg (by intro hc; exact h (hc ▸ List.mem_cons_self c rest))]
    simp only [List.append_eq]
    rw [ih (c :: acc) (fun hm => h (List.mem_cons_of_mem c hm))]
    simp

/-- Python splits back what it joined, provided no element contains the
separator and the list is nonempty. -/
theorem pysplit_pyjoin (L : List String) (hne : L ≠ [])
    (hfree : ∀ s ∈ L, ',' ∉ s.data) : pysplit (pyjoin L) = L := by
  induction L with
  | nil => exact absurd rfl hne
  | cons s M ih =>
    cases M with
    | nil =>
      show splitChAux ',' s.data [] = [s]
      rw [splitChAux_no_sep _ _ (hfree s (by simp))]
      simp
    | cons t N =>
      rw [pyjoin_cons s (t :: N) (by simp)]
      show splitChAux ',' (s ++ ("," ++ pyjoin (t :: N))).data [] = _
      have hdata : (s ++ ("," ++ pyjoin (t :: N))).data
          = s.data ++ ',' :: (pyjoin (t :: N)).data := by
        show (String.mk (s.data ++ ([','] ++ (pyjoin (t :: N)).data))).data = _
        simp
      rw [hdata, splitChAux_append_sep _ _ _ (hfree s (by simp))]
      have ihr := ih (by simp) (fun u hu => hfree u (List.mem_cons_of_mem s hu))
      show String.mk s.data :: splitChAux ',' (pyjoin (t :: N)).data [] = _
      rw [show splitChAux ',' (pyjoin (t :: N)).data [] = pysplit (pyjoin (t :: N)) from rfl, ihr]

theorem char_digit_toNat (d : Nat) (hd : d < 10) :
    (Char.ofNat (48 + d)).toNat = 48 + d := by
  interval_cases d <;> decide

theorem char_digit_isDigit (d : Nat) (hd : d < 10) :
    (Char.ofNat (48 + d)).isDigit = true := by
  interval_cases d <;> decide

theorem natDigitsRevFuel_all_digit (fuel n : Nat) :
    (natDigitsRevFuel fuel n).all Char.isDigit = true := by
  induction fuel generalizing n with
  | zero => rfl
  | succ f ih =>
    cases n with
    | zero => rfl
    | succ m =>
      simp only [natDigitsRevFuel, List.all_cons, Bool.and_eq_true]
      exact ⟨char_digit_isDigit _ (Nat.mod_lt _ (by norm_num)), ih _⟩

theorem natDigitsRevFuel_ne_nil (fuel n : Nat) (h1 : 0 < n) (h2 : n ≤ fuel) :
    natDigitsRevFuel fuel n ≠ [] := by
  cases fuel with
  | zero => omega
  | succ f =>
    cases n with
    | zero => omega
    | succ m => simp [natDigitsRevFuel]

theorem digitsVal_concat (l : List Char) (c : Char) :
    digitsVal (l ++ [c]) = digitsVal l * 10 + (c.toNat - 48) := by
  simp [digitsVal, List.foldl_append]

theorem digitsVal_natDigitsRevFuel (fuel : Nat) :
    ∀ n, n ≤ fuel → digitsVal (natDigitsRevFuel fuel n).reverse = n := by
  induction fuel with
  | zero =>
    intro n hn
    interval_cases n
    rfl
  | succ f ih =>
    intro n hn
    cases n with
    | zero => rfl
    | succ m =>
      have hdiv : (m + 1) / 10 ≤ f := by
        have := Nat.div_lt_self (Nat.succ_pos m) (by norm_num : 1 < 10)
        omega
      simp only [natDigitsRevFuel, List.reverse_cons, digitsVal_concat, ih _ hdiv]
      rw [char_digit_toNat _ (Nat.mod_lt _ (by norm_num))]
      omega

theorem parseNatDigits_natStr (n : Nat) :
    parseNatDigits (natStr n).data = some n := by
  by_cases h0 : n = 0
  · subst h0
    decide
  · have hpos : 0 < n := Nat.pos_of_ne_zero h0
    have hdata : (natStr n).data = (natDigitsRevFuel n n).reverse := by
      simp [natStr, h0]
    rw [parseNatDigits, hdata]
    rw [if_pos ?hc]
    · rw [digitsVal_natDigitsRevFuel n n le_rfl]
    case hc =>
      constructor
      · simp [natDigitsRevFuel_ne_nil n n hpos le_rfl]
      · simp only [List.all_reverse]
        exact natDigitsRevFuel_all_digit n n

theorem natStr_data_digits (n : Nat) : (natStr n).data.all Char.isDigit = true := by
  have h := parseNatDigits_natStr n
  rw [parseNatDigits] at h
  split at h
  · rename_i hc
    exact hc.2
  · exact absurd h (by simp)

theorem natStr_data_ne_nil (n : Nat) : (natStr n).data ≠ [] := by
  have h := parseNatDigits_natStr n
  rw [parseNatDigits] at h
  split at h
  · rename_i hc
    exact hc.1
  · exact absurd h (by simp)

theorem parsePyInt_data_cons (c : Char) (cs : List Char) (s : String)
    (h : s.data = c :: cs) :
    parsePyInt s =
      if c = '-' then (parseNatDigits cs).map (fun n => -(Int.ofNat n))
      else if c = '+' then (parseNatDigits cs).map (fun n => Int.ofNat n)
      else (parseNatDigits (c :: cs)).map (fun n => Int.ofNat n) := by
  rw [parsePyInt, h]

/-- Python `int(str(i))` recovers `i`: the decimal printer and parser of the
embedding agree, which backs the integer-cell round trip of the registry. -/
theorem parsePyInt_pyIntStr (i : Int) : parsePyInt (pyIntStr i) = some i := by
  by_cases hneg : i < 0
  · have hdata : (pyIntStr i).data = '-' :: (natStr i.natAbs).data := by
      simp only [pyIntStr, if_pos hneg]
      rfl
    rw [parsePyInt_data_cons _ _ _ hdata, if_pos rfl, parseNatDigits_natStr]
    simp only [Option.map_some']
    congr 1
    simp only [Int.ofNat_eq_natCast]
    omega
  · have hdata : (pyIntStr i).data = (natStr i.toNat).data := by
      simp [pyIntStr, hneg]
    obtain ⟨c, cs, hcs⟩ : ∃ c cs, (natStr i.toNat).data = c :: cs := by
      cases h : (natStr i.toNat).data with
      | nil => exact absurd h (natStr_data_ne_nil _)
      | cons c cs => exact ⟨c, cs, rfl⟩
    have hdig : c.isDigit = true := by
      have := natStr_data_digits i.toNat
      rw [hcs] at this
      simp only [List.all_cons, Bool.and_eq_true] at this
      exact this.1
    rw [parsePyInt_data_cons c cs _ (hdata.trans hcs)]
    rw [if_neg (by rintro rfl; exact absurd hdig (by decide))]
    rw [if_neg (by rintro rfl; exact absurd hdig (by decide))]
    rw [← hcs, parseNatDigits_natStr]
    simp only [Option.map_some']
    congr 1
    simp only [Int.ofNat_eq_natCast]
    omega

/-! Storage layer: the cell coercion rules of `read_database` and
`write_database` (`KEY_TYPE` drives a per-column conversion between cell
text and typed values). -/

/-- The column kinds of `KEY_TYPE` in `database_manager.py`. -/
inductive FieldType
  | str
  | int
  | list
  | bool
  deriving DecidableEq

/-- A typed in-memory cell value, as `read_database` produces it. -/
inductive Value
  | vstr (s : String)
  | vint (n : Int)
  | vlist (l : List String)
  | vbool (b : Bool)
  deriving DecidableEq

/-- ASCII lowercasing of one character, as Python `str.lower` acts on the
characters these cells use. -/
def lowerChar (c : Char) : Char :=
  if 65 ≤ c.toNat ∧ c.toNat ≤ 90 then Char.ofNat (c.toNat + 32) else c

/-- Python `s.lower()` on ASCII text. -/
def pyLower (s : String) : String := String.mk (s.data.map lowerChar)

/-- Cell coercion of `read_database`: an empty cell becomes absent, a list
cell is split on commas, an int cell is parsed (failure models the
`ValueError` the Python code would raise), a bool cell compares its
lowercased text to `true`; everything else stays a string. -/
def readCell (t : FieldType) (cell : String) : Except Unit (Option Value) :=
  if cell = "" then .ok none
  else
    match t with
    | .list => .ok (some (.vlist (pysplit cell)))
    | .int =>
      match parsePyInt cell with
      | some n => .ok (some (.vint n))
      | none => .error ()
    | .bool => .ok (some (.vbool (pyLower cell == "true")))
    | .str => .ok (some (.vstr cell))

/-- Cell rendering of `write_database`: lists are comma-joined, ints and
bools are rendered with `str` (a Python bool is an int, so the int branch
fires first and still yields `True` / `False`), an absent value becomes the
empty cell the csv writer emits for `None`. -/
def writeCell (v : Option Value) : String :=
  match v with
  | none => ""
  | some (.vlist l) => pyjoin l
  | some (.vint n) => pyIntStr n
  | some (.vbool b) => pyBoolStr b
  | some (.vstr s) => s

/-- The sixteen value columns of `KEY_TYPE` in declaration order, with the
`Name` key column excluded: Address, Endpoint, AllowedIPs, ListenPort,
PersistentKeepalive, FwMark, PrivateKey, PresharedKeys, DNS, MTU, Table,
PreUp, PostUp, PreDown, PostDown, SaveConfig. -/
def schema : List FieldType :=
  [.list, .str, .list, .int, .int, .str, .str, .str,
   .str, .int, .str, .str, .str, .str, .str, .bool]

/-- Read one stored row of value cells through the per-column coercion. -/
def readRow (cells : List String) : Except Unit (List (Option Value)) :=
  (schema.zip cells).mapM (fun tc => readCell tc.1 tc.2)

/-- Insertion into a Python dict rendered on an association list: an
existing key keeps its position and receives the new value, a new key is
appended. -/
def dictInsert (db : List (String × α)) (k : String) (v : α) : List (String × α) :=
  if (db.find? (fun e => e.1 == k)).isSome then
    db.map (fun e => if e.1 == k then (k, v) else e)
  else db ++ [(k, v)]

/-- The row loop of `DatabaseManager.read_database`: each row is coerced
cell by cell and stored in the peers dict under its popped `Name` cell. -/
def loadTableAux (db : List (String × List (Option Value))) :
    List (String × List String) → Except Unit (List (String × List (Option Value)))
  | [] => .ok db
  | (nm, cells) :: rest =>
    match readRow cells with
    | .error e => .error e
    | .ok vs => loadTableAux (dictInsert db nm vs) rest

/-- `DatabaseManager.read_database` on the stored rows.  The csv framing
and the file handling are outside the model: a stored row is its `Name`
cell paired with the sixteen value cells in column order. -/
def loadTable (rows : List (String × List String)) :
    Except Unit (List (String × List (Option Value))) :=
  loadTableAux [] rows

/-- `DatabaseManager.write_database`: every value is rendered back to cell
text, rows in dict order, `Name` re-attached as the first column. -/
def saveTable (db : List (String × List (Option Value))) :
    List (String × List String) :=
  db.map (fun e => (e.1, e.2.map writeCell))

/-- A well-formed typed value for a column: the value matches the declared
column type, strings are nonempty (an empty cell reads back as absent) and
list values are comma-free and do not join to the empty string. -/
def wfValue (t : FieldType) (v : Option Value) : Prop :=
  match v with
  | none => True
  | some (.vstr s) => t = .str ∧ s ≠ ""
  | some (.vint _) => t = .int
  | some (.vlist l) => t = .list ∧ pyjoin l ≠ "" ∧ ∀ s ∈ l, ',' ∉ s.data
  | some (.vbool _) => t = .bool

/-- A canonically well-formed stored cell: it parses under its column type,
integer cells are canonical decimal and boolean cells are exactly the
capitalized `True` / `False` that `write_database` itself produces. -/
def wfCellCanon (t : FieldType) (cell : String) : Prop :=
  cell = "" ∨
    match t with
    | .int => ∃ n : Int, cell = pyIntStr n
    | .bool => cell = "True" ∨ cell = "False"
    | _ => True

instance instDecEqExcept {ε α : Type} [DecidableEq ε] [DecidableEq α] :
    DecidableEq (Except ε α) := fun a b =>
  match a, b with
  | .error e, .error f =>
    if h : e = f then .isTrue (by rw [h])
    else .isFalse (fun hc => by cases hc; exact h rfl)
  | .error e, .ok y => .isFalse (fun hc => by cases hc)
  | .ok x, .error f => .isFalse (fun hc => by cases hc)
  | .ok x, .ok y =>
    if h : x = y then .isTrue (by rw [h])
    else .isFalse (fun hc => by cases hc; exact h rfl)

theorem pyIntStr_data_ne_nil (i : Int) : (pyIntStr i).data ≠ [] := by
  by_cases hneg : i < 0
  · have h : (pyIntStr i).data = '-' :: (natStr i.natAbs).data := by
      simp only [pyIntStr, if_pos hneg]
      rfl
    simp [h]
  · have h : (pyIntStr i).data = (natStr i.toNat).data := by
      simp [pyIntStr, hneg]
    rw [h]
    exact natStr_data_ne_nil _

theorem pyIntStr_ne_empty (i : Int) : pyIntStr i ≠ "" := by
  intro h
  exact pyIntStr_data_ne_nil i (by rw [h])

/-- Reading back a written cell recovers the value, for well-formed typed
values. -/
theorem readCell_writeCell (t : FieldType) (v : Option Value) (h : wfValue t v) :
    readCell t (writeCell v) = .ok v := by
  match v with
  | none => rfl
  | some (.vstr s) =>
    obtain ⟨rfl, hs⟩ := h
    simp [readCell, writeCell, hs]
  | some (.vint n) =>
    obtain rfl := h
    simp only [writeCell, readCell, if_neg (pyIntStr_ne_empty n), parsePyInt_pyIntStr]
  | some (.vlist l) =>
    obtain ⟨rfl, hj, hfree⟩ := h
    have hne : l ≠ [] := by
      intro hl
      exact hj (hl ▸ rfl)
    simp [readCell, writeCell, hj, pysplit_pyjoin l hne hfree]
  | some (.vbool b) =>
    obtain rfl := h
    cases b <;> decide

/-- Writing back a read cell reproduces the text, for canonically
well-formed cells. -/
theorem writeCell_readCell (t : FieldType) (cell : String) (h : wfCellCanon t cell) :
    (readCell t cell).map writeCell = .ok cell := by
  by_cases hc : cell = ""
  · subst hc
    rfl
  · rcases h with h | h
    · exact absurd h hc
    · match t with
      | .str => simp [readCell, writeCell, Except.map, hc]
      | .list =>
        simp [readCell, writeCell, Except.map, hc, pyjoin_pysplit]
      | .int =>
        obtain ⟨n, rfl⟩ := h
        simp only [readCell, if_neg hc, parsePyInt_pyIntStr]
        rfl
      | .bool =>
        rcases h with rfl | rfl <;> decide

theorem mapM_readCell_map_writeCell :
    ∀ (ts : List FieldType) (vs : List (Option Value)),
      ts.length = vs.length →
      (∀ p ∈ ts.zip vs, wfValue p.1 p.2) →
      ((ts.zip (vs.map writeCell)).mapM (fun tc => readCell tc.1 tc.2)) = .ok vs := by
  intro ts
  induction ts with
  | nil =>
    intro vs hlen hwf
    cases vs with
    | nil => rfl
    | cons v vs' => simp at hlen
  | cons t ts' ih =>
    intro vs hlen hwf
    cases vs with
    | nil => simp at hlen
    | cons v vs' =>
      simp only [List.map_cons, List.zip_cons_cons, List.mapM_cons]
      rw [readCell_writeCell t v (hwf (t, v) (by simp))]
      rw [ih vs' (by simpa using hlen) (fun p hp => hwf p (by simp [hp]))]
      rfl

theorem dictInsert_not_mem {α : Type} (db : List (String × α)) (k : String) (v : α)
    (h : k ∉ db.map Prod.fst) : dictInsert db k v = db ++ [(k, v)] := by
  rw [dictInsert, if_neg]
  intro hs
  rw [List.find?_isSome] at hs
  obtain ⟨e, he, hek⟩ := hs
  exact h (by
    have : e.1 = k := by simpa using hek
    exact this ▸ List.mem_map_of_mem Prod.fst he)

theorem loadTableAux_saveTable :
    ∀ (db acc : List (String × List (Option Value))),
      (∀ e ∈ db, e.2.length = 16) →
      (∀ e ∈ db, ∀ p ∈ schema.zip e.2, wfValue p.1 p.2) →
      (acc.map Prod.fst ++ db.map Prod.fst).Nodup →
      loadTableAux acc (saveTable db) = .ok (acc ++ db) := by
  intro db
  induction db with
  | nil =>
    intro acc _ _ _
    simp [saveTable, loadTableAux]
  | cons e rest ih =>
    intro acc hlen hwf hnd
    obtain ⟨nm, vs⟩ := e
    have hread : readRow (vs.map writeCell) = .ok vs := by
      have h16 : vs.length = 16 := hlen (nm, vs) (by simp)
      exact mapM_readCell_map_writeCell schema vs (by rw [h16]; rfl)
        (hwf (nm, vs) (by simp))
    show loadTableAux acc ((nm, vs.map writeCell) :: saveTable rest) = _
    simp only [loadTableAux, hread]
    have hnm : nm ∉ acc.map Prod.fst := by
      simp only [List.map_cons, List.nodup_append] at hnd
      intro hmem
      exact hnd.2.2 hmem (by simp)
    rw [dictInsert_not_mem acc nm vs hnm]
    rw [ih (acc ++ [(nm, vs)])
      (fun x hx => hlen x (List.mem_cons_of_mem _ hx))
      (fun x hx => hwf x (List.mem_cons_of_mem _ hx))
      (by simpa using hnd)]
    simp

theorem mapM_readCell_exists :
    ∀ (ts : List FieldType) (cells : List String),
      ts.length = cells.length →
      (∀ p ∈ ts.zip cells, wfCellCanon p.1 p.2) →
      ∃ vs, ((ts.zip cells).mapM (fun tc => readCell tc.1 tc.2)) = .ok vs ∧
        vs.map writeCell = cells := by
  intro ts
  induction ts with
  | nil =>
    intro cells hlen hwf
    cases cells with
    | nil => exact ⟨[], rfl, rfl⟩
    | cons c cs => simp at hlen
  | cons t ts' ih =>
    intro cells hlen hwf
    cases cells with
    | nil => simp at hlen
    | cons c cs =>
      have hcell := writeCell_readCell t c (hwf (t, c) (by simp))
      obtain ⟨v, hv, hwv⟩ : ∃ v, readCell t c = .ok v ∧ writeCell v = c := by
        cases hr : readCell t c with
        | error e => rw [hr] at hcell; exact absurd hcell (by simp [Except.map])
        | ok v =>
          rw [hr] at hcell
          exact ⟨v, rfl, by simpa [Except.map] using hcell⟩
      obtain ⟨vs', hvs, hmap⟩ := ih cs (by simpa using hlen)
        (fun p hp => hwf p (by simp [hp]))
      refine ⟨v :: vs', ?_, by simp [hwv, hmap]⟩
      simp only [List.zip_cons_cons, List.mapM_cons, hv, hvs]
      rfl

theorem loadTableAux_exists :
    ∀ (rows : List (String × List String)) (acc : List (String × List (Option Value))),
      (∀ r ∈ rows, r.2.length = 16) →
      (∀ r ∈ rows, ∀ p ∈ schema.zip r.2, wfCellCanon p.1 p.2) →
      (acc.map Prod.fst ++ rows.map Prod.fst).Nodup →
      ∃ db2, loadTableAux acc rows = .ok (acc ++ db2) ∧ saveTable db2 = rows := by
  intro rows
  induction rows with
  | nil =>
    intro acc _ _ _
    exact ⟨[], by simp [loadTableAux], rfl⟩
  | cons r rest ih =>
    intro acc hlen hwf hnd
    obtain ⟨nm, cells⟩ := r
    obtain ⟨vs, hvs, hmap⟩ := mapM_readCell_exists schema cells
      (by rw [hlen (nm, cells) (by simp)]; rfl)
      (hwf (nm, cells) (by simp))
    have hread : readRow cells = .ok vs := hvs
    show ∃ db2, loadTableAux acc ((nm, cells) :: rest) = _ ∧ _
    simp only [loadTableAux, hread]
    have hnm : nm ∉ acc.map Prod.fst := by
      simp only [List.map_cons, List.nodup_append] at hnd
      intro hmem
      exact hnd.2.2 hmem (by simp)
    rw [dictInsert_not_mem acc nm vs hnm]
    obtain ⟨db2, hdb2, hsave⟩ := ih (acc ++ [(nm, vs)])
      (fun x hx => hlen x (List.mem_cons_of_mem _ hx))
      (fun x hx => hwf x (List.mem_cons_of_mem _ hx))
      (by simpa using hnd)
    refine ⟨(nm, vs) :: db2, ?_, ?_⟩
    · rw [hdb2]
      simp
    · simp [saveTable] at hsave ⊢
      exact ⟨hmap, hsave⟩

/-- The spec's own well-formedness of a stored cell, modelled from the
spec (sections 4.1 and 6): an empty cell means absent, a typed cell parses
per its declared type, and boolean cells are the literal case-insensitive
`true` / `false`. -/
def specWfCell (t : FieldType) (cell : String) : Bool :=
  cell == "" ||
    match t with
    | .int => (parsePyInt cell).isSome
    | .bool => pyLower cell == "true" || pyLower cell == "false"
    | _ => true

/-- A stored row whose SaveConfig cell is the lowercase `true` that the
spec declares well-formed. -/
def c1Row : List String :=
  ["10.0.0.1/24", "", "", "80", "", "", "PRIVA", "",
   "", "", "", "", "", "", "", "true"]

/-- The same row as `write_database` re-emits it: Python `str(True)`
capitalizes the boolean cell. -/
def c1RowSaved : List String :=
  ["10.0.0.1/24", "", "", "80", "", "", "PRIVA", "",
   "", "", "", "", "", "", "", "True"]

/-- C1 counterexample: the byte-level round trip `Save(Load(x)) == x`
fails on a stored table that is well-formed by the spec's own coercion
rules (boolean cells are literal case-insensitive `true` / `false`):
loading the row with SaveConfig cell `true` and saving it back produces
the cell `True`, because `write_database` renders booleans with Python
`str`. -/
theorem c1_save_load_counterexample :
    (c1Row.length = 16 ∧ (schema.zip c1Row).all (fun p => specWfCell p.1 p.2) = true) ∧
    (loadTable [("A", c1Row)]).map saveTable = .ok [("A", c1RowSaved)] ∧
    [("A", c1RowSaved)] ≠ [("A", c1Row)] := by
  exact ⟨by decide, by decide, by decide⟩

/-- C1 (amended): the registry round trip holds with canonical boolean
cells.  `Load(Save(R)) == R` for every registry of well-formed typed
values with distinct names, and `Save(Load(x)) == x` for every well-formed
stored table with distinct names whose boolean cells are exactly the
capitalized `True` / `False` that `write_database` itself produces (not
the arbitrary-case `true` / `false` of the spec) and whose integer cells
are canonical decimal. -/
theorem c1_round_trip_amended
    (db : List (String × List (Option Value)))
    (rows : List (String × List String))
    (hdbLen : ∀ e ∈ db, e.2.length = 16)
    (hdbWf : ∀ e ∈ db, ∀ p ∈ schema.zip e.2, wfValue p.1 p.2)
    (hdbNd : (db.map Prod.fst).Nodup)
    (hrLen : ∀ r ∈ rows, r.2.length = 16)
    (hrWf : ∀ r ∈ rows, ∀ p ∈ schema.zip r.2, wfCellCanon p.1 p.2)
    (hrNd : (rows.map Prod.fst).Nodup) :
    loadTable (saveTable db) = .ok db ∧
      (loadTable rows).map saveTable = .ok rows := by
  constructor
  · have h := loadTableAux_saveTable db [] hdbLen hdbWf (by simpa using hdbNd)
    simpa [loadTable] using h
  · obtain ⟨db2, hdb2, hsave⟩ := loadTableAux_exists rows [] hrLen hrWf
      (by simpa using hrNd)
    rw [loadTable, hdb2]
    simp [Except.map, hsave]

/-- A one-row in-memory registry used to instantiate the round-trip
theorem. -/
def c1dbW : List (String × List (Option Value)) :=
  [("A", [some (.vlist ["10.0.0.1/24"]), none, none, some (.vint 80),
          none, none, some (.vstr "PRIVA"), none, none, none, none,
          none, none, none, none, some (.vbool true)])]

def c1rowsW : List (String × List String) := [("A", c1RowSaved)]

/-- Witness for the amended round trip at a concrete registry and a
concrete stored table. -/
theorem c1_round_trip_amended_witness :
    ((c1dbW.map Prod.fst).Nodup ∧ (c1rowsW.map Prod.fst).Nodup) ∧
      (loadTable (saveTable c1dbW) = .ok c1dbW ∧
        (loadTable c1rowsW).map saveTable = .ok c1rowsW) := by
  refine ⟨⟨by decide, by decide⟩, ?_⟩
  refine c1_round_trip_amended c1dbW c1rowsW (by decide) ?_ (by decide)
    (by decide) ?_ (by decide)
  · intro e he p hp
    fin_cases he
    fin_cases hp <;> first
      | exact trivial
      | exact ⟨rfl, by decide⟩
      | exact rfl
  · intro r hr p hp
    fin_cases hr
    fin_cases hp <;> first
      | exact Or.inl rfl
      | exact Or.inr trivial
      | exact Or.inr (Or.inl rfl)
      | exact Or.inr ⟨(80 : Int), by decide⟩

/-! In-memory peer model: the typed value dict `read_database` builds for
one peer, with the name held as the registry key. -/

/-- One mesh peer.  `Address` is required (`init` aborts and `genconfig`
raises before ever using a peer without one), every other attribute is
optional with the `KEY_TYPE` column type; `PresharedKeys` is kept as the
comma-joined string the database stores. -/
structure Peer where
  Address : List String
  Endpoint : Option String := none
  AllowedIPs : Option (List String) := none
  ListenPort : Option Int := none
  PersistentKeepalive : Option Int := none
  FwMark : Option String := none
  PrivateKey : Option String := none
  PresharedKeys : Option String := none
  DNS : Option String := none
  MTU : Option Int := none
  Table : Option String := none
  PreUp : Option String := none
  PostUp : Option String := none
  PreDown : Option String := none
  PostDown : Option String := none
  SaveConfig : Option Bool := none
  deriving DecidableEq, Inhabited

/-- One keyword-argument set of `updatepeer`: `none` models an unsupplied
argument, which Python leaves at its default `None`. -/
structure UpdateArgs where
  Address : Option (List String) := none
  Endpoint : Option String := none
  AllowedIPs : Option (List String) := none
  ListenPort : Option Int := none
  PersistentKeepalive : Option Int := none
  FwMark : Option String := none
  PrivateKey : Option String := none
  PresharedKeys : Option String := none
  DNS : Option String := none
  MTU : Option Int := none
  Table : Option String := none
  PreUp : Option String := none
  PostUp : Option String := none
  PreDown : Option String := none
  PostDown : Option String := none
  SaveConfig : Option Bool := none
  deriving DecidableEq, Inhabited

/-- The guarded write of the `updatepeer` loop: a key is overwritten only
when `locals().get(key)` is not `None`. -/
def updField {α : Type} (arg old : Option α) : Option α :=
  match arg with
  | some v => some v
  | none => old

/-- `DatabaseManager.updatepeer` on the named peer's dict: every attribute
of `INTERFACE_ATTRIBUTES ++ PEER_ATTRIBUTES` whose argument is supplied is
overwritten, the rest keep their stored value.  (`PublicKey` is listed
there but has no parameter, so it is never written.) -/
def updatepeer (a : UpdateArgs) (p : Peer) : Peer :=
  { Address := match a.Address with
      | some v => v
      | none => p.Address
    Endpoint := updField a.Endpoint p.Endpoint
    AllowedIPs := updField a.AllowedIPs p.AllowedIPs
    ListenPort := updField a.ListenPort p.ListenPort
    PersistentKeepalive := updField a.PersistentKeepalive p.PersistentKeepalive
    FwMark := updField a.FwMark p.FwMark
    PrivateKey := updField a.PrivateKey p.PrivateKey
    PresharedKeys := updField a.PresharedKeys p.PresharedKeys
    DNS := updField a.DNS p.DNS
    MTU := updField a.MTU p.MTU
    Table := updField a.Table p.Table
    PreUp := updField a.PreUp p.PreUp
    PostUp := updField a.PostUp p.PostUp
    PreDown := updField a.PreDown p.PreDown
    PostDown := updField a.PostDown p.PostDown
    SaveConfig := updField a.SaveConfig p.SaveConfig }

/-- `DatabaseManager.updatepeer` at registry level: a missing name prints
a message and leaves the registry unchanged; an existing entry keeps its
dict position. -/
def updatepeerDb (nm : String) (a : UpdateArgs) (db : List (String × Peer)) :
    List (String × Peer) :=
  if (db.find? (fun e => e.1 == nm)).isSome then
    db.map (fun e => if e.1 == nm then (e.1, updatepeer a e.2) else e)
  else db

theorem updField_none {α : Type} (old : Option α) : updField none old = old := rfl

theorem updField_clear {α : Type} (arg old : Option α)
    (h : updField arg old = none) : old = none := by
  cases arg with
  | some v => exact absurd h (by simp [updField])
  | none => exact h

/-- C9: `updatepeer` treats an unsupplied argument (`None`) as do-not-touch
— every attribute whose argument is left unset keeps the stored value —
and consequently it can never clear a previously-set optional field back
to absent (if the updated field is absent, it already was). -/
theorem c9_updatepeer_frame (a : UpdateArgs) (p : Peer) :
    (a.Address = none → (updatepeer a p).Address = p.Address) ∧
    (a.Endpoint = none → (updatepeer a p).Endpoint = p.Endpoint) ∧
    (a.AllowedIPs = none → (updatepeer a p).AllowedIPs = p.AllowedIPs) ∧
    (a.ListenPort = none → (updatepeer a p).ListenPort = p.ListenPort) ∧
    (a.PersistentKeepalive = none →
      (updatepeer a p).PersistentKeepalive = p.PersistentKeepalive) ∧
    (a.FwMark = none → (updatepeer a p).FwMark = p.FwMark) ∧
    (a.PrivateKey = none → (updatepeer a p).PrivateKey = p.PrivateKey) ∧
    (a.PresharedKeys = none → (updatepeer a p).PresharedKeys = p.PresharedKeys) ∧
    (a.DNS = none → (updatepeer a p).DNS = p.DNS) ∧
    (a.MTU = none → (updatepeer a p).MTU = p.MTU) ∧
    (a.Table = none → (updatepeer a p).Table = p.Table) ∧
    (a.PreUp = none → (updatepeer a p).PreUp = p.PreUp) ∧
    (a.PostUp = none → (updatepeer a p).PostUp = p.PostUp) ∧
    (a.PreDown = none → (updatepeer a p).PreDown = p.PreDown) ∧
    (a.PostDown = none → (updatepeer a p).PostDown = p.PostDown) ∧
    (a.SaveConfig = none → (updatepeer a p).SaveConfig = p.SaveConfig) ∧
    ((updatepeer a p).Endpoint = none → p.Endpoint = none) ∧
    ((updatepeer a p).AllowedIPs = none → p.AllowedIPs = none) ∧
    ((updatepeer a p).ListenPort = none → p.ListenPort = none) ∧
    ((updatepeer a p).PersistentKeepalive = none →
      p.PersistentKeepalive = none) ∧
    ((updatepeer a p).FwMark = none → p.FwMark = none) ∧
    ((updatepeer a p).PrivateKey = none → p.PrivateKey = none) ∧
    ((updatepeer a p).PresharedKeys = none → p.PresharedKeys = none) ∧
    ((updatepeer a p).DNS = none → p.DNS = none) ∧
    ((updatepeer a p).MTU = none → p.MTU = none) ∧
    ((updatepeer a p).Table = none → p.Table = none) ∧
    ((updatepeer a p).PreUp = none → p.PreUp = none) ∧
    ((updatepeer a p).PostUp = none → p.PostUp = none) ∧
    ((updatepeer a p).PreDown = none → p.PreDown = none) ∧
    ((updatepeer a p).PostDown = none → p.PostDown = none) ∧
    ((updatepeer a p).SaveConfig = none → p.SaveConfig = none) := by
  repeat' apply And.intro
  all_goals
    first
      | (intro h; simp [updatepeer, h, updField])
      | (intro h; exact updField_clear _ _ (by simpa [updatepeer] using h))

/-- A concrete update argument set that supplies only `Endpoint`. -/
def c9args : UpdateArgs := { Endpoint := some "host.example.com" }

/-- A concrete stored peer. -/
def c9peer : Peer :=
  { Address := ["10.0.0.1/24"], ListenPort := some 80,
    PresharedKeys := some "K1,K2" }

/-- Witness: updating `c9peer` with only `Endpoint` supplied leaves
`ListenPort` and `PresharedKeys` untouched. -/
theorem c9_updatepeer_frame_witness :
    (c9args.ListenPort = none ∧ c9args.PresharedKeys = none) ∧
      ((updatepeer c9args c9peer).ListenPort = c9peer.ListenPort ∧
        (updatepeer c9args c9peer).PresharedKeys = c9peer.PresharedKeys) :=
  ⟨⟨rfl, rfl⟩,
    ⟨(c9_updatepeer_frame c9args c9peer).2.2.2.1 rfl,
      (c9_updatepeer_frame c9args c9peer).2.2.2.2.2.2.2.1 rfl⟩⟩

/-! PSK assignment engine: `DatabaseManager.calculate_psks`. -/

/-- `itertools.combinations(peers, r=2)`: every unordered pair of list
positions in canonical order, first component earlier in the list. -/
def pairs : List String → List (String × String)
  | [] => []
  | x :: rest => rest.map (fun y => (x, y)) ++ pairs rest

/-- Lookup of `database["peers"][name]`.  The source raises `KeyError` on
an absent name; callers of this model rule that out, so the default is
never reached in the theorems. -/
def findPeer (db : List (String × Peer)) (n : String) : Peer :=
  match db.find? (fun e => e.1 == n) with
  | some e => e.2
  | none => default

/-- One peer's contribution to the pool: its `PresharedKeys` cell split on
commas when present, nothing otherwise. -/
def peerKeys (db : List (String × Peer)) (p : String) : List String :=
  match (findPeer db p).PresharedKeys with
  | some s => pysplit s
  | none => []

/-- The pooled inventory of `calculate_psks`: each listed peer's existing
keys, concatenated in peer enumeration order. -/
def pskPool (db : List (String × Peer)) (peers : List String) : List String :=
  (peers.map (peerKeys db)).flatten

/-- The pair loop of `calculate_psks`: the reversed pool is used as a
stack popped from its end (Python `list.pop()`); when it is empty a fresh
key is drawn from the generator and the inform counter is bumped. -/
def calcAux (gen : Nat → String) :
    List (String × String) → List String → Nat → Nat →
      List (String × String × String) × Nat × Nat
  | [], _, k, inform => ([], k, inform)
  | c :: cs, stack, k, inform =>
    match stack.getLast? with
    | some key =>
      let r := calcAux gen cs stack.dropLast k inform
      ((c.1, c.2, key) :: r.1, r.2)
    | none =>
      let r := calcAux gen cs [] (k + 1) (inform + 1)
      ((c.1, c.2, gen k) :: r.1, r.2)

/-- `DatabaseManager.calculate_psks`: the assignment tuples, the number of
generator calls made, and the inform count the source reports. -/
def calculate_psks (gen : Nat → String) (peers : List String)
    (db : List (String × Peer)) :
    List (String × String × String) × Nat × Nat :=
  calcAux gen (pairs peers) (pskPool db peers).reverse 0 0

/-- Closed form of the pair loop: the i-th pair takes the i-th pool entry
(in original concatenation order), and pairs beyond the pool take
consecutive generator outputs. -/
def zipAssign (gen : Nat → String) :
    List (String × String) → List String → Nat → List (String × String × String)
  | [], _, _ => []
  | c :: cs, key :: ks, k => (c.1, c.2, key) :: zipAssign gen cs ks k
  | c :: cs, [], k => (c.1, c.2, gen k) :: zipAssign gen cs [] (k + 1)

theorem calcAux_reverse (gen : Nat → String) :
    ∀ (cs : List (String × String)) (pool : List String) (k inform : Nat),
      calcAux gen cs pool.reverse k inform =
        (zipAssign gen cs pool k, k + (cs.length - pool.length),
          inform + (cs.length - pool.length)) := by
  intro cs
  induction cs with
  | nil =>
    intro pool k inform
    simp [calcAux, zipAssign]
  | cons c cs' ih =>
    intro pool k inform
    cases pool with
    | nil =>
      show calcAux gen (c :: cs') [] k inform = _
      simp only [calcAux, List.getLast?_nil]
      have h := ih [] (k + 1) (inform + 1)
      simp only [List.reverse_nil] at h
      rw [h]
      simp only [zipAssign, List.length_nil, List.length_cons, Prod.mk.injEq]
      refine ⟨trivial, ?_, ?_⟩ <;> omega
    | cons key ks =>
      show calcAux gen (c :: cs') ((key :: ks).reverse) k inform = _
      have hrev : (key :: ks).reverse = ks.reverse ++ [key] := by simp
      rw [hrev]
      simp only [calcAux, List.getLast?_concat, List.dropLast_concat]
      rw [ih ks k inform]
      simp only [zipAssign, List.length_cons, Prod.mk.injEq]
      refine ⟨trivial, ?_, ?_⟩ <;> omega

theorem zipAssign_fst (gen : Nat → String) :
    ∀ (cs : List (String × String)) (ks : List String) (k : Nat),
      (zipAssign gen cs ks k).map (fun t => (t.1, t.2.1)) = cs := by
  intro cs
  induction cs with
  | nil => intro ks k; rfl
  | cons c cs' ih =>
    intro ks k
    cases ks with
    | nil => simp [zipAssign, ih]
    | cons key ks' => simp [zipAssign, ih]

theorem zipAssign_length (gen : Nat → String) (cs : List (String × String))
    (ks : List String) (k : Nat) : (zipAssign gen cs ks k).length = cs.length := by
  have h := zipAssign_fst gen cs ks k
  have := congrArg List.length h
  simpa using this

theorem zipAssign_keys (gen : Nat → String) :
    ∀ (cs : List (String × String)) (ks : List String) (k : Nat),
      (zipAssign gen cs ks k).map (fun t => t.2.2) =
        ks.take cs.length ++
          (List.range (cs.length - ks.length)).map (fun j => gen (k + j)) := by
  intro cs
  induction cs with
  | nil => intro ks k; simp [zipAssign]
  | cons c cs' ih =>
    intro ks k
    cases ks with
    | nil =>
      simp only [zipAssign, List.map_cons, ih [] (k + 1), List.take_nil,
        List.length_nil, List.nil_append, List.length_cons, Nat.sub_zero]
      rw [List.range_succ_eq_map]
      simp only [List.map_cons, List.map_map, Nat.add_zero]
      congr 1
      apply List.map_congr_left
      intro j hj
      show gen (k + 1 + j) = gen (k + (j + 1))
      congr 1
      omega
    | cons key ks' =>
      simp only [zipAssign, List.map_cons, ih ks' k, List.length_cons,
        List.take_succ_cons, List.cons_append, Nat.succ_sub_succ]

theorem mem_pairs : ∀ (l : List String) (a b : String),
    (a, b) ∈ pairs l → a ∈ l ∧ b ∈ l := by
  intro l
  induction l with
  | nil => intro a b h; simp [pairs] at h
  | cons x rest ih =>
    intro a b h
    simp only [pairs, List.mem_append, List.mem_map] at h
    rcases h with ⟨y, hy, heq⟩ | h
    · injection heq with h1 h2
      subst h1
      subst h2
      exact ⟨by simp, by simp [hy]⟩
    · obtain ⟨ha, hb⟩ := ih a b h
      exact ⟨by simp [ha], by simp [hb]⟩

theorem pairs_length_double : ∀ l : List String,
    2 * (pairs l).length = l.length * (l.length - 1) := by
  intro l
  induction l with
  | nil => rfl
  | cons x rest ih =>
    simp only [pairs, List.length_append, List.length_map, List.length_cons]
    have hr : (rest.length + 1) * (rest.length + 1 - 1)
        = 2 * rest.length + rest.length * (rest.length - 1) := by
      cases rest.length with
      | zero => rfl
      | succ m =>
        simp only [Nat.add_sub_cancel, Nat.succ_sub_one]
        ring
    omega

theorem count_map_pair_fst (x b : String) (l : List String) :
    (l.map (fun y => (x, y))).count (x, b) = l.count b := by
  induction l with
  | nil => rfl
  | cons y ys ih =>
    simp only [List.map_cons, List.count_cons, ih]
    congr 1
    simp [Prod.ext_iff]

theorem count_map_pair_ne (x a b : String) (l : List String) (h : a ≠ x) :
    (l.map (fun y => (x, y))).count (a, b) = 0 := by
  rw [List.count_eq_zero]
  intro hm
  obtain ⟨y, hy, heq⟩ := List.mem_map.mp hm
  injection heq with h1 h2
  exact h h1.symm

theorem count_pairs_zero (l : List String) (a b : String)
    (h : a ∉ l ∨ b ∉ l) : (pairs l).count (a, b) = 0 := by
  rw [List.count_eq_zero]
  intro hm
  obtain ⟨ha, hb⟩ := mem_pairs l a b hm
  rcases h with h | h
  · exact h ha
  · exact h hb

theorem pairs_count (l : List String) (hnd : l.Nodup) (a b : String)
    (ha : a ∈ l) (hb : b ∈ l) (hne : a ≠ b) :
    (pairs l).count (a, b) + (pairs l).count (b, a) = 1 := by
  induction l with
  | nil => simp at ha
  | cons x rest ih =>
    have hx : x ∉ rest := (List.nodup_cons.mp hnd).1
    have hndr : rest.Nodup := (List.nodup_cons.mp hnd).2
    simp only [pairs, List.count_append]
    by_cases hax : a = x
    · subst hax
      have hbr : b ∈ rest := by
        rcases List.mem_cons.mp hb with rfl | h
        · exact absurd rfl hne
        · exact h
      rw [count_map_pair_fst, List.count_eq_one_of_mem hndr hbr,
        count_map_pair_ne _ _ _ _ hne.symm,
        count_pairs_zero _ _ _ (Or.inl hx), count_pairs_zero _ _ _ (Or.inr hx)]
    · by_cases hbx : b = x
      · subst hbx
        have har : a ∈ rest := by
          rcases List.mem_cons.mp ha with rfl | h
          · exact absurd rfl hax
          · exact h
        rw [count_map_pair_fst, List.count_eq_one_of_mem hndr har,
          count_map_pair_ne _ _ _ _ hax,
          count_pairs_zero _ _ _ (Or.inr hx), count_pairs_zero _ _ _ (Or.inl hx)]
      · have har : a ∈ rest := by
          rcases List.mem_cons.mp ha with rfl | h
          · exact absurd rfl hax
          · exact h
        have hbr : b ∈ rest := by
          rcases List.mem_cons.mp hb with rfl | h
          · exact absurd rfl hbx
          · exact h
        rw [count_map_pair_ne _ _ _ _ hax, count_map_pair_ne _ _ _ _ hbx]
        have := ih hndr har hbr
        omega

theorem natStr_injective : Function.Injective natStr := by
  intro a b h
  have ha := parseNatDigits_natStr a
  rw [h, parseNatDigits_natStr b] at ha
  injection ha with h2
  exact h2.symm

/-- C3: PSK completeness.  Over `N` listed peers, `calculate_psks` returns
exactly `N(N-1)/2` assignments; every unordered pair of distinct peers is
covered exactly once (counting both orientations); and no key is assigned
to two different pairs, given that the pooled inventory entries are
pairwise distinct and the synthesized keys are fresh (mutually distinct
and outside the pool). -/
theorem c3_psk_completeness (gen : Nat → String) (peers : List String)
    (db : List (String × Peer))
    (hnd : peers.Nodup)
    (hpool : (pskPool db peers).Nodup)
    (hgen : Function.Injective gen)
    (hdisj : ∀ k, gen k ∉ pskPool db peers) :
    ((calculate_psks gen peers db).1.length
        = peers.length * (peers.length - 1) / 2) ∧
    (∀ a b, a ∈ peers → b ∈ peers → a ≠ b →
      ((calculate_psks gen peers db).1.map (fun t => (t.1, t.2.1))).count (a, b) +
        ((calculate_psks gen peers db).1.map (fun t => (t.1, t.2.1))).count (b, a)
          = 1) ∧
    ((calculate_psks gen peers db).1.map (fun t => t.2.2)).Nodup := by
  have hres : (calculate_psks gen peers db).1
      = zipAssign gen (pairs peers) (pskPool db peers) 0 := by
    rw [calculate_psks, calcAux_reverse]
  refine ⟨?_, ?_, ?_⟩
  · rw [hres, zipAssign_length]
    have := pairs_length_double peers
    omega
  · intro a b ha hb hne
    rw [hres, zipAssign_fst]
    exact pairs_count peers hnd a b ha hb hne
  · rw [hres, zipAssign_keys]
    rw [List.nodup_append]
    refine ⟨?_, ?_, ?_⟩
    · exact (List.take_sublist _ _).nodup hpool
    · refine List.Nodup.map ?_ (List.nodup_range _)
      intro u v huv
      have := hgen huv
      omega
    · intro x hx hx2
      obtain ⟨j, hj, rfl⟩ := List.mem_map.mp hx2
      exact hdisj (0 + j) (List.take_subset _ _ hx)

/-- A three-peer registry with empty inventories. -/
def c3db : List (String × Peer) :=
  [("A", { Address := ["10.0.0.1/24"] }),
   ("B", { Address := ["10.0.0.2/24"] }),
   ("C", { Address := ["10.0.0.3/24"] })]

/-- Witness: three peers with empty inventories give three assignments
with pairwise distinct keys. -/
theorem c3_psk_completeness_witness :
    (["A", "B", "C"].Nodup ∧ (pskPool c3db ["A", "B", "C"]).Nodup) ∧
      ((calculate_psks natStr ["A", "B", "C"] c3db).1.length = 3 ∧
        ((calculate_psks natStr ["A", "B", "C"] c3db).1.map
          (fun t => t.2.2)).Nodup) :=
  ⟨⟨by decide, by decide⟩,
    ⟨(c3_psk_completeness natStr ["A", "B", "C"] c3db (by decide) (by decide)
        natStr_injective
        (by
          intro k
          rw [(by decide : pskPool c3db ["A", "B", "C"] = [])]
          simp)).1,
      (c3_psk_completeness natStr ["A", "B", "C"] c3db (by decide) (by decide)
        natStr_injective
        (by
          intro k
          rw [(by decide : pskPool c3db ["A", "B", "C"] = [])]
          simp)).2.2⟩⟩

theorem triple_ext (t u : String × String × String)
    (h1 : t.1 = u.1) (h2 : t.2.1 = u.2.1) (h3 : t.2.2 = u.2.2) : t = u := by
  obtain ⟨a, b, c⟩ := t
  obtain ⟨d, e, f⟩ := u
  simp_all

theorem zipAssign_key_get (gen : Nat → String) (cs : List (String × String))
    (ks : List String) (k j : Nat) (hj : j < (zipAssign gen cs ks k).length)
    (hp : j < ks.length) :
    ((zipAssign gen cs ks k).get ⟨j, hj⟩).2.2 = ks.get ⟨j, hp⟩ := by
  have hlen := zipAssign_length gen cs ks k
  have hcs : j < cs.length := hlen ▸ hj
  have hq : ((zipAssign gen cs ks k).map (fun t => t.2.2))[j]? = ks[j]? := by
    rw [zipAssign_keys gen cs ks k]
    rw [List.getElem?_append_left (by simp; omega)]
    exact List.getElem?_take_of_lt hcs
  rw [List.getElem?_map, List.getElem?_eq_getElem hj,
    List.getElem?_eq_getElem hp] at hq
  simp only [Option.map_some'] at hq
  injection hq

theorem zipAssign_pair_get (gen : Nat → String) (cs : List (String × String))
    (ks : List String) (k j : Nat) (hj : j < (zipAssign gen cs ks k).length)
    (hcs : j < cs.length) :
    (((zipAssign gen cs ks k).get ⟨j, hj⟩).1,
      ((zipAssign gen cs ks k).get ⟨j, hj⟩).2.1) = cs.get ⟨j, hcs⟩ := by
  have hq : ((zipAssign gen cs ks k).map (fun t => (t.1, t.2.1)))[j]? = cs[j]? := by
    rw [zipAssign_fst gen cs ks k]
  rw [List.getElem?_map, List.getElem?_eq_getElem hj,
    List.getElem?_eq_getElem hcs] at hq
  simp only [Option.map_some'] at hq
  injection hq

theorem get_congr_of_eq {α : Type} {l l2 : List α} (h : l = l2) (j : Nat)
    (hj : j < l.length) (hj2 : j < l2.length) :
    l.get ⟨j, hj⟩ = l2.get ⟨j, hj2⟩ := by
  have hq : l[j]? = l2[j]? := by rw [h]
  rw [List.getElem?_eq_getElem hj, List.getElem?_eq_getElem hj2] at hq
  injection hq

/-- C4 (amended): the pooled inventory is each peer's `PresharedKeys` in
peer enumeration order, and the code's reverse-then-pop stack hands the
j-th pool entry to the j-th pair in canonical combination order, so the
earliest-listed inventory key goes to the earliest pair.  Consequently the
assignment restricted to pool-covered pairs is identical across
invocations; pairs beyond the pool receive synthesized keys that depend on
the run's randomness (see the counterexample for the unrestricted claim). -/
theorem c4_pool_consumption_amended (gen gen2 : Nat → String)
    (peers : List String) (db : List (String × Peer)) :
    (∀ j (hj : j < (calculate_psks gen peers db).1.length)
        (hp : j < (pskPool db peers).length),
      ((calculate_psks gen peers db).1.get ⟨j, hj⟩).2.2
        = (pskPool db peers).get ⟨j, hp⟩) ∧
    (∀ j (hj : j < (calculate_psks gen peers db).1.length)
        (hj2 : j < (calculate_psks gen2 peers db).1.length)
        (hp : j < (pskPool db peers).length),
      (calculate_psks gen peers db).1.get ⟨j, hj⟩
        = (calculate_psks gen2 peers db).1.get ⟨j, hj2⟩) := by
  have hres : ∀ g : Nat → String, (calculate_psks g peers db).1
      = zipAssign g (pairs peers) (pskPool db peers) 0 := by
    intro g
    rw [calculate_psks, calcAux_reverse]
  constructor
  · intro j hj hp
    have hj2 : j < (zipAssign gen (pairs peers) (pskPool db peers) 0).length := by
      rw [← hres gen]
      exact hj
    rw [get_congr_of_eq (hres gen) j hj hj2]
    exact zipAssign_key_get gen (pairs peers) (pskPool db peers) 0 j hj2 hp
  · intro j hj hj2 hp
    have ha : j < (zipAssign gen (pairs peers) (pskPool db peers) 0).length := by
      rw [← hres gen]
      exact hj
    have hb : j < (zipAssign gen2 (pairs peers) (pskPool db peers) 0).length := by
      rw [← hres gen2]
      exact hj2
    have hcs : j < (pairs peers).length := by
      have := zipAssign_length gen (pairs peers) (pskPool db peers) 0
      omega
    rw [get_congr_of_eq (hres gen) j hj ha, get_congr_of_eq (hres gen2) j hj2 hb]
    have p1 := zipAssign_pair_get gen (pairs peers) (pskPool db peers) 0 j ha hcs
    have p2 := zipAssign_pair_get gen2 (pairs peers) (pskPool db peers) 0 j hb hcs
    have hpp := p1.trans p2.symm
    refine triple_ext _ _ ?_ ?_ ?_
    · have h1 := congrArg Prod.fst hpp
      simpa using h1
    · have h2 := congrArg Prod.snd hpp
      simpa using h2
    · rw [zipAssign_key_get gen (pairs peers) (pskPool db peers) 0 j ha hp,
        zipAssign_key_get gen2 (pairs peers) (pskPool db peers) 0 j hb hp]

/-- A two-peer registry with empty inventories. -/
def c4db : List (String × Peer) :=
  [("A", { Address := ["10.0.0.1/24"] }),
   ("B", { Address := ["10.0.0.2/24"] })]

/-- C4 counterexample: with the same registry and the same peer ordering,
two invocations whose key source draws different randomness do not produce
an identical pair-to-key assignment once synthesis is needed — exactly the
condition under which the source prints that the PSKs will change every
run. -/
theorem c4_counterexample :
    (calculate_psks (fun _ => "X") ["A", "B"] c4db).1 ≠
      (calculate_psks (fun _ => "Y") ["A", "B"] c4db).1 := by
  decide

/-- A two-peer registry whose first peer holds one pooled key. -/
def c4dbW : List (String × Peer) :=
  [("A", { Address := ["10.0.0.1/24"], PresharedKeys := some "K1" }),
   ("B", { Address := ["10.0.0.2/24"] })]

/-- Witness: the first pair receives the first pooled key `K1`. -/
theorem c4_pool_consumption_witness :
    (0 < (calculate_psks (fun _ => "X") ["A", "B"] c4dbW).1.length ∧
        0 < (pskPool c4dbW ["A", "B"]).length) ∧
      ((calculate_psks (fun _ => "X") ["A", "B"] c4dbW).1.get
          ⟨0, by decide⟩).2.2
        = (pskPool c4dbW ["A", "B"]).get ⟨0, by decide⟩ :=
  ⟨⟨by decide, by decide⟩,
    (c4_pool_consumption_amended (fun _ => "X") (fun _ => "Y")
        ["A", "B"] c4dbW).1 0 (by decide) (by decide)⟩

/-- C7: determinism with full inventory.  When the deduplicated union of
all listed peers' inventories holds at least `N(N-1)/2` keys, a full-mesh
run makes zero generator calls and reports zero synthesized pairs. -/
theorem c7_zero_synthesis (gen : Nat → String) (db : List (String × Peer))
    (h : (db.map Prod.fst).length * ((db.map Prod.fst).length - 1) / 2
        ≤ ((pskPool db (db.map Prod.fst)).dedup).length) :
    (calculate_psks gen (db.map Prod.fst) db).2.1 = 0 ∧
      (calculate_psks gen (db.map Prod.fst) db).2.2 = 0 := by
  have hdl : ((pskPool db (db.map Prod.fst)).dedup).length
      ≤ (pskPool db (db.map Prod.fst)).length :=
    (List.dedup_sublist _).length_le
  have hp := pairs_length_double (db.map Prod.fst)
  have hle : (pairs (db.map Prod.fst)).length
      ≤ (pskPool db (db.map Prod.fst)).length := by omega
  rw [calculate_psks, calcAux_reverse]
  constructor <;> (show 0 + _ = 0) <;> omega

/-- A two-peer registry whose single required PSK is already pooled. -/
def c7db : List (String × Peer) :=
  [("A", { Address := ["10.0.0.1/24"], PresharedKeys := some "K1" }),
   ("B", { Address := ["10.0.0.2/24"] })]

/-- Witness: one pooled key covers the one required pair, so no synthesis
happens. -/
theorem c7_zero_synthesis_witness :
    ((c7db.map Prod.fst).length * ((c7db.map Prod.fst).length - 1) / 2
        ≤ ((pskPool c7db (c7db.map Prod.fst)).dedup).length) ∧
      ((calculate_psks natStr (c7db.map Prod.fst) c7db).2.1 = 0 ∧
        (calculate_psks natStr (c7db.map Prod.fst) c7db).2.2 = 0) :=
  ⟨by decide, c7_zero_synthesis natStr c7db (by decide)⟩

/-! Registry initializer: the PSK-provisioning path of
`DatabaseManager.init` on an existing database (`with_psk = True`). -/

/-- The truthiness test `init` uses when sizing the fresh-key batch: a
peer contributes the length of its comma-split only when its
`PresharedKeys` value is truthy (neither `None` nor the empty string). -/
def truthyKeyCount (p : Peer) : Nat :=
  match p.PresharedKeys with
  | some s => if s = "" then 0 else (pysplit s).length
  | none => 0

/-- The inventory the fill loop extends: the comma-split of
`PresharedKeys` when it is not `None`, empty otherwise. -/
def invList (p : Peer) : List String :=
  match p.PresharedKeys with
  | some s => pysplit s
  | none => []

/-- The fill loop body of `init`: `range(peer_needed - len(presharedkeys))`
iterations, each appending `additional_keys.pop()` (popped from the end)
when the batch is nonempty. -/
def popAppend : List String → List String → Nat → List String × List String
  | acc, pool, 0 => (acc, pool)
  | acc, pool, t + 1 =>
    match pool.getLast? with
    | some key => popAppend (acc ++ [key]) pool.dropLast t
    | none => (acc, pool)

/-- The `ListenPort` defaulting of the `init` loop. -/
def fillPort (p : Peer) : Peer :=
  { p with ListenPort := match p.ListenPort with
    | none => some 51820
    | some x => some x }

/-- The `PrivateKey` generation of the `init` loop, threading the shared
generator counter. -/
def fillKey (gen : Nat → String) (k : Nat) (p : Peer) : Peer × Nat :=
  match p.PrivateKey with
  | none => ({ p with PrivateKey := some (gen k) }, k + 1)
  | some _ => (p, k)

/-- The `enumerate` loop of `init`: default the port, generate a missing
private key, and fill the PSK inventory toward `n - 1 - counter` entries
from the shared fresh-key batch.  Each output entry carries the final
inventory list the code stores into the peer dict. -/
def initLoop (gen : Nat → String) (n : Nat) :
    List (String × Peer) → List String → Nat → Nat →
      List (String × Peer × List String)
  | [], _, _, _ => []
  | (nm, p) :: rest, addl, k, counter =>
    (nm, (fillKey gen k (fillPort p)).1,
      (popAppend (invList (fillKey gen k (fillPort p)).1) addl
        (n - 1 - counter - (invList (fillKey gen k (fillPort p)).1).length)).1) ::
      initLoop gen n rest
        (popAppend (invList (fillKey gen k (fillPort p)).1) addl
          (n - 1 - counter - (invList (fillKey gen k (fillPort p)).1).length)).2
        (fillKey gen k (fillPort p)).2 (counter + 1)

/-- The batch size `psk_needed` of `init`: `sum(range(N))` minus the
truthy inventory counts, as a possibly negative Python int. -/
def pskNeeded (db : List (String × Peer)) : Int :=
  Int.ofNat (List.range db.length).sum
    - Int.ofNat (db.map (fun e => truthyKeyCount e.2)).sum

/-- `DatabaseManager.init` with PSK provisioning on an existing registry:
the fresh batch holds `psk_needed` keys (an excess clamps to zero, like
Python `range` on a negative bound), pre-generated before the loop;
missing private keys continue the same generator stream. -/
def initPsk (gen : Nat → String) (db : List (String × Peer)) :
    List (String × Peer × List String) :=
  initLoop gen db.length db
    ((List.range (pskNeeded db).toNat).map gen) (pskNeeded db).toNat 0

/-- The total deficit of the rows from position `c` on: how many fresh
keys the loop will consume. -/
def needSum (n : Nat) : List (String × Peer) → Nat → Nat
  | [], _ => 0
  | (_, p) :: rest, c => (n - 1 - c - (invList p).length) + needSum n rest (c + 1)

theorem popAppend_fst_length :
    ∀ (t : Nat) (acc pool : List String),
      (popAppend acc pool t).1.length = acc.length + min t pool.length := by
  intro t
  induction t with
  | zero => intro acc pool; simp [popAppend]
  | succ t ih =>
    intro acc pool
    cases hpool : pool.getLast? with
    | none =>
      have hnil : pool = [] := by
        cases pool with
        | nil => rfl
        | cons x xs => simp [List.getLast?_concat] at hpool
      subst hnil
      simp [popAppend]
    | some key =>
      have hne : pool ≠ [] := by
        intro h
        subst h
        simp at hpool
      simp only [popAppend, hpool, ih]
      have hlen : pool.dropLast.length = pool.length - 1 := by
        simp [List.length_dropLast]
      have hpos : 0 < pool.length := List.length_pos.mpr hne
      rw [hlen]
      simp only [List.length_append, List.length_cons, List.length_nil]
      omega

theorem popAppend_snd_length :
    ∀ (t : Nat) (acc pool : List String),
      (popAppend acc pool t).2.length = pool.length - t := by
  intro t
  induction t with
  | zero => intro acc pool; simp [popAppend]
  | succ t ih =>
    intro acc pool
    cases hpool : pool.getLast? with
    | none =>
      have hnil : pool = [] := by
        cases pool with
        | nil => rfl
        | cons x xs => simp [List.getLast?_concat] at hpool
      subst hnil
      simp [popAppend]
    | some key =>
      have hne : pool ≠ [] := by
        intro h
        subst h
        simp at hpool
      simp only [popAppend, hpool, ih]
      have hlen : pool.dropLast.length = pool.length - 1 := by
        simp [List.length_dropLast]
      have hpos : 0 < pool.length := List.length_pos.mpr hne
      omega

theorem invList_fillKey (gen : Nat → String) (k : Nat) (p : Peer) :
    invList (fillKey gen k (fillPort p)).1 = invList p := by
  cases hpk : p.PrivateKey <;> simp [fillKey, fillPort, invList, hpk]

theorem initLoop_quota (gen : Nat → String) (n : Nat) :
    ∀ (rows : List (String × Peer)) (addl : List String) (k c : Nat),
      (∀ j (hj : j < rows.length),
        (invList (rows.get ⟨j, hj⟩).2).length ≤ n - 1 - (c + j)) →
      addl.length = needSum n rows c →
      ∀ j (hj : j < (initLoop gen n rows addl k c).length),
        ((initLoop gen n rows addl k c).get ⟨j, hj⟩).2.2.length
          = n - 1 - (c + j) := by
  intro rows
  induction rows with
  | nil =>
    intro addl k c hq hlen j hj
    simp [initLoop] at hj
  | cons e rest ih =>
    intro addl k c hq hlen j hj
    obtain ⟨nm, p⟩ := e
    have hinv := invList_fillKey gen k p
    have hq0 : (invList p).length ≤ n - 1 - c := by
      have := hq 0 (by simp)
      simpa using this
    have hneed : addl.length
        = (n - 1 - c - (invList p).length) + needSum n rest (c + 1) := by
      rw [hlen]
      rfl
    cases j with
    | zero =>
      show ((nm, (fillKey gen k (fillPort p)).1,
        (popAppend (invList (fillKey gen k (fillPort p)).1) addl
          (n - 1 - c - (invList (fillKey gen k (fillPort p)).1).length)).1) ::
          initLoop gen n rest _ _ _).get ⟨0, hj⟩ |>.2.2.length = n - 1 - (c + 0)
      show (popAppend (invList (fillKey gen k (fillPort p)).1) addl
        (n - 1 - c - (invList (fillKey gen k (fillPort p)).1).length)).1.length
          = n - 1 - (c + 0)
      rw [hinv, popAppend_fst_length]
      omega
    | succ j =>
      have hj' : j < (initLoop gen n rest
          (popAppend (invList (fillKey gen k (fillPort p)).1) addl
            (n - 1 - c - (invList (fillKey gen k (fillPort p)).1).length)).2
          (fillKey gen k (fillPort p)).2 (c + 1)).length := by
        have : j + 1 < (initLoop gen n ((nm, p) :: rest) addl k c).length := hj
        simpa [initLoop] using this
      have hstep := ih (popAppend (invList (fillKey gen k (fillPort p)).1) addl
          (n - 1 - c - (invList (fillKey gen k (fillPort p)).1).length)).2
        (fillKey gen k (fillPort p)).2 (c + 1)
        (by
          intro i hi
          have := hq (i + 1) (by simpa using hi)
          have harith : c + (i + 1) = c + 1 + i := by omega
          rw [harith] at this
          simpa using this)
        (by
          rw [popAppend_snd_length, hinv, hneed]
          omega)
        j hj'
      have harith : c + (j + 1) = c + 1 + j := by omega
      rw [harith]
      rw [← hstep]
      congr 1

/-- Descending quota sum over `m` positions starting at `c`: the total of
`(n - 1 - position)`. -/
def quotaSum (n : Nat) : Nat → Nat → Nat
  | 0, _ => 0
  | m + 1, c => (n - 1 - c) + quotaSum n m (c + 1)

theorem needSum_add_inv (n : Nat) :
    ∀ (rows : List (String × Peer)) (c : Nat),
      (∀ j (hj : j < rows.length),
        (invList (rows.get ⟨j, hj⟩).2).length ≤ n - 1 - (c + j)) →
      needSum n rows c + (rows.map (fun e => (invList e.2).length)).sum
        = quotaSum n rows.length c := by
  intro rows
  induction rows with
  | nil => intro c hq; rfl
  | cons e rest ih =>
    intro c hq
    obtain ⟨nm, p⟩ := e
    have h0 : (invList p).length ≤ n - 1 - c := by
      simpa using hq 0 (by simp)
    have hr := ih (c + 1) (fun j hj => by
      have := hq (j + 1) (by simpa using hj)
      have harith : c + (j + 1) = c + 1 + j := by omega
      rw [harith] at this
      simpa using this)
    simp only [needSum, List.map_cons, List.sum_cons, List.length_cons, quotaSum]
    omega

theorem quotaSum_range (n : Nat) :
    ∀ (m c : Nat), c + m ≤ n →
      quotaSum n m c + (List.range (n - c - m)).sum = (List.range (n - c)).sum := by
  intro m
  induction m with
  | zero => intro c h; simp [quotaSum]
  | succ m ih =>
    intro c h
    have hih := ih (c + 1) (by omega)
    simp only [quotaSum]
    have hnc : n - c = (n - c - 1) + 1 := by omega
    have hsum : (List.range (n - c)).sum = (List.range (n - c - 1)).sum + (n - c - 1) := by
      rw [hnc, List.range_succ, List.sum_append]
      simp
    have he2 : n - (c + 1) - m = n - c - (m + 1) := by omega
    have he1 : n - (c + 1) = n - c - 1 := by omega
    rw [he2, he1] at hih
    omega

/-- C5 (amended): after `init` with PSK provisioning, every peer's
`PresharedKeys` inventory holds exactly `(peer count − 1 − its position
index)` entries, provided no peer's pre-existing inventory already exceeds
that quota.  (The code only tops inventories up and never truncates, so an
over-quota inventory survives — see the counterexample for the claim's
`for every starting state` part.) -/
theorem c5_init_quota_amended (gen : Nat → String) (db : List (String × Peer))
    (hne : ∀ e ∈ db, e.2.PresharedKeys ≠ some "")
    (hq : ∀ j (hj : j < db.length),
      (invList (db.get ⟨j, hj⟩).2).length ≤ db.length - 1 - j) :
    ∀ j (hj : j < (initPsk gen db).length),
      ((initPsk gen db).get ⟨j, hj⟩).2.2.length = db.length - 1 - j := by
  intro j hj
  have hq0 : ∀ i (hi : i < db.length),
      (invList (db.get ⟨i, hi⟩).2).length ≤ db.length - 1 - (0 + i) := by
    intro i hi
    simpa using hq i hi
  have htruthy : (db.map (fun e => truthyKeyCount e.2)).sum
      = (db.map (fun e => (invList e.2).length)).sum := by
    apply congrArg
    apply List.map_congr_left
    intro e he
    have hnee := hne e he
    cases hs : e.2.PresharedKeys with
    | none => simp [truthyKeyCount, invList, hs]
    | some s =>
      have hsne : s ≠ "" := by
        intro h0
        exact hnee (by rw [hs, h0])
      simp [truthyKeyCount, invList, hs, hsne]
  have hns := needSum_add_inv db.length db 0 hq0
  have hqr := quotaSum_range db.length db.length 0 (by omega)
  simp only [Nat.sub_zero, Nat.sub_self, List.range_zero, List.sum_nil,
    Nat.add_zero] at hqr
  have hbatch : (pskNeeded db).toNat = needSum db.length db 0 := by
    rw [pskNeeded]
    simp only [Int.ofNat_eq_natCast]
    omega
  have hlenb : ((List.range (pskNeeded db).toNat).map gen).length
      = needSum db.length db 0 := by
    simp [hbatch]
  have hmain := initLoop_quota gen db.length db
    ((List.range (pskNeeded db).toNat).map gen) (pskNeeded db).toNat
    0 hq0 hlenb j hj
  simpa [initPsk] using hmain

/-- A two-peer registry whose first peer already holds two keys, one more
than its quota. -/
def c5db : List (String × Peer) :=
  [("A", { Address := ["10.0.0.1/24"], PresharedKeys := some "K1,K2" }),
   ("B", { Address := ["10.0.0.2/24"] })]

/-- C5 counterexample: running `init` with PSK provisioning on `c5db`
leaves the first peer with 2 inventory entries, not its quota
`N - 1 - 0 = 1`: the pass never truncates an over-quota inventory, so the
claim fails for this starting state. -/
theorem c5_init_quota_counterexample :
    (initPsk natStr c5db).map (fun e => e.2.2.length) = [2, 0] ∧
      (2 : Nat) ≠ c5db.length - 1 - 0 := by
  exact ⟨by decide, by decide⟩

/-- A three-peer registry whose inventories are all within quota. -/
def c5dbW : List (String × Peer) :=
  [("A", { Address := ["10.0.0.1/24"], PresharedKeys := some "K1" }),
   ("B", { Address := ["10.0.0.2/24"] }),
   ("C", { Address := ["10.0.0.3/24"] })]

/-- Witness: with all inventories within quota, the first peer ends with
exactly `3 - 1 - 0 = 2` entries. -/
theorem c5_init_quota_amended_witness :
    ((∀ e ∈ c5dbW, e.2.PresharedKeys ≠ some "") ∧
        (∀ j (hj : j < c5dbW.length),
          (invList (c5dbW.get ⟨j, hj⟩).2).length ≤ c5dbW.length - 1 - j)) ∧
      ((initPsk natStr c5dbW).get ⟨0, by decide⟩).2.2.length
        = c5dbW.length - 1 - 0 :=
  ⟨⟨by decide, by decide⟩,
    c5_init_quota_amended natStr c5dbW (by decide) (by decide) 0 (by decide)⟩

/-! Mesh config generator: `DatabaseManager.genconfig` without the
filesystem (the output directory handling is plumbing; a document is its
lines). -/

/-- Octet parsing of the Python `ipaddress` module: one to three decimal
digits, no leading zero, value at most 255. -/
def parseOctet (s : String) : Option Nat :=
  if s.data ≠ [] ∧ s.data.all Char.isDigit ∧ s.data.length ≤ 3 ∧
      (s.data.length = 1 ∨ s.data.head? ≠ some '0') then
    if digitsVal s.data ≤ 255 then some (digitsVal s.data) else none
  else none

/-- Dotted-quad IPv4 parsing: four octets joined by dots, as one 32-bit
number. -/
def parseIPv4 (s : String) : Option Nat :=
  match (splitCh '.' s).mapM parseOctet with
  | some [a, b, c, d] => some (((a * 256 + b) * 256 + c) * 256 + d)
  | _ => none

/-- Prefix-length parsing: decimal digits, value at most 32. -/
def parsePrefixLen (s : String) : Option Nat :=
  if s.data ≠ [] ∧ s.data.all Char.isDigit then
    if digitsVal s.data ≤ 32 then some (digitsVal s.data) else none
  else none

/-- Python `ipaddress.ip_network(s, strict=False)` on IPv4 text: the
network address with the host bits cleared, paired with the prefix length.
`none` models the `ValueError` the source turns into an abort. -/
def ip_network (s : String) : Option (Nat × Nat) :=
  match splitCh '/' s with
  | [a] => (parseIPv4 a).map (fun x => (x, 32))
  | [a, p] =>
    match parseIPv4 a, parsePrefixLen p with
    | some x, some pl => some (x / 2 ^ (32 - pl) * 2 ^ (32 - pl), pl)
    | _, _ => none
  | _ => none

/-- Dotted-quad rendering of a 32-bit address. -/
def ipStr (x : Nat) : String :=
  natStr (x / 16777216 % 256) ++ "." ++ natStr (x / 65536 % 256)
    ++ "." ++ natStr (x / 256 % 256) ++ "." ++ natStr (x % 256)

/-- Python `str(ip_network(subnet, strict=False))` as `genconfig` uses it
for `AllowedIPs` entries.  An unparsable subnet raises in the source
(aborting generation); it is modelled as passthrough text, and the
theorems only quantify over parsable subnets. -/
def ipNetRender (s : String) : String :=
  match ip_network s with
  | some xp => ipStr xp.1 ++ "/" ++ natStr xp.2
  | none => s

/-- One generated configuration document: the interface lines and, per
included counterpart, its peer-section lines in emission order. -/
structure PeerDoc where
  interface : List String
  sections : List (String × List String)
  deriving DecidableEq

/-- An optional interface attribute renders as a single `key = value`
line when present and nothing when absent. -/
def optLine (key : String) (v : Option String) : List String :=
  match v with
  | some s => [key ++ " = " ++ s]
  | none => []

/-- The `[Interface]` block: name comment, comma-joined `Address`, the
owner's `PrivateKey`, then every present optional attribute in
`INTERFACE_OPTIONAL_ATTRIBUTES` order. -/
def interfaceLines (nm : String) (p : Peer) : List String :=
  ["[Interface]", "# Name: " ++ nm,
   "Address = " ++ joinCS p.Address,
   "PrivateKey = " ++ pyOptStr p.PrivateKey]
  ++ optLine ("ListenPort") (p.ListenPort.map pyIntStr)
  ++ optLine ("FwMark") p.FwMark
  ++ optLine ("DNS") p.DNS
  ++ optLine ("MTU") (p.MTU.map pyIntStr)
  ++ optLine ("Table") p.Table
  ++ optLine ("PreUp") p.PreUp
  ++ optLine ("PostUp") p.PostUp
  ++ optLine ("PreDown") p.PreDown
  ++ optLine ("PostDown") p.PostDown
  ++ optLine ("SaveConfig") (p.SaveConfig.map pyBoolStr)

/-- Python tuple membership `x in psk_tuple` on an assignment triple: the
name is compared against both pair components and the key itself. -/
def tmem (x : String) (t : String × String × String) : Bool :=
  x == t.1 || x == t.2.1 || x == t.2.2

/-- The `PresharedKey` lines of one peer section: one line per tuple
containing both the document owner and the counterpart. -/
def pskLines (tuples : List (String × String × String)) (owner q : String) :
    List String :=
  ((tuples.filter (fun t => tmem owner t)).filter (fun t => tmem q t)).map
    (fun t => "PresharedKey = " ++ t.2.2)

/-- One `[Peer]` section of `owner`'s document describing counterpart
`qn` (the caller has already checked the reachability guard): public key
via the provider, `Endpoint = host:port` when the counterpart has an
endpoint, the normalized `AllowedIPs`, the owner's own keepalive, and the
PSK lines in PSK mode.  The `Address` presence test of the source is
always true here because `Address` is a required field of the model. -/
def peerSectionLines (withPsk : Bool) (tuples : List (String × String × String))
    (pub : Option String → String) (owner : String) (self : Peer)
    (qn : String) (q : Peer) : List String :=
  ["", "[Peer]", "# Name: " ++ qn, "PublicKey = " ++ pub q.PrivateKey]
  ++ (match q.Endpoint with
      | some e => ["Endpoint = " ++ e ++ ":" ++ pyOptIntStr q.ListenPort]
      | none => [])
  ++ ["AllowedIPs = " ++ (match q.AllowedIPs with
      | some extra => joinCS (q.Address.map ipNetRender ++ extra)
      | none => joinCS (q.Address.map ipNetRender))]
  ++ (match self.PersistentKeepalive with
      | some kv => ["PersistentKeepalive = " ++ pyIntStr kv]
      | none => [])
  ++ (if withPsk then pskLines tuples owner qn else [])

/-- The document for `owner`: the interface block plus one section per
other registry peer whose endpoint-or-mine reachability guard holds. -/
def genDoc (pub : Option String → String) (withPsk : Bool)
    (tuples : List (String × String × String)) (db : List (String × Peer))
    (owner : String) (self : Peer) : PeerDoc :=
  { interface := interfaceLines owner self,
    sections := (db.filter (fun e => e.1 != owner)).filterMap (fun e =>
      if e.2.Endpoint.isSome || self.Endpoint.isSome then
        some (e.1, peerSectionLines withPsk tuples pub owner self e.1 e.2)
      else none) }

/-- The peer selection of `genconfig`: the named peer alone, or every
registry peer. -/
def genconfigPeers (db : List (String × Peer)) (nameOpt : Option String) :
    List String :=
  match nameOpt with
  | some n => [n]
  | none => db.map Prod.fst

/-- `DatabaseManager.genconfig`: the documents for the selected peer (or
for all peers), computing the PSK assignment over exactly the selected
peer list when PSK mode is on — which is the single-element list when a
name is given. -/
def genconfig (pub : Option String → String) (gen : Nat → String)
    (db : List (String × Peer)) (nameOpt : Option String) (withPsk : Bool) :
    List (String × PeerDoc) :=
  (genconfigPeers db nameOpt).map (fun n =>
    (n, genDoc pub withPsk
      (if withPsk then (calculate_psks gen (genconfigPeers db nameOpt) db).1
        else [])
      db n (findPeer db n)))

theorem findPeer_eq (db : List (String × Peer)) (nm : String) (p : Peer)
    (hnd : (db.map Prod.fst).Nodup) (hmem : (nm, p) ∈ db) :
    findPeer db nm = p := by
  induction db with
  | nil => simp at hmem
  | cons e rest ih =>
    obtain ⟨n0, p0⟩ := e
    have hnd0 : n0 ∉ rest.map Prod.fst := by
      simp only [List.map_cons, List.nodup_cons] at hnd
      exact hnd.1
    have hndr : (rest.map Prod.fst).Nodup := by
      simp only [List.map_cons, List.nodup_cons] at hnd
      exact hnd.2
    rcases List.mem_cons.mp hmem with heq | hmem2
    · injection heq with h1 h2
      subst h1
      subst h2
      simp [findPeer, List.find?_cons_of_pos]
    · have hne : n0 ≠ nm := by
        intro h0
        subst h0
        exact hnd0 (List.mem_map_of_mem Prod.fst hmem2)
      have hfind : List.find? (fun e => e.1 == nm) ((n0, p0) :: rest)
          = List.find? (fun e => e.1 == nm) rest := by
        rw [List.find?_cons_of_neg]
        simp [hne]
      have hstep : findPeer ((n0, p0) :: rest) nm = findPeer rest nm := by
        simp only [findPeer, hfind]
      rw [hstep]
      exact ih hndr hmem2

theorem key_unique (db : List (String × Peer)) (hnd : (db.map Prod.fst).Nodup)
    (nm : String) (p q : Peer) (hp : (nm, p) ∈ db) (hq : (nm, q) ∈ db) :
    p = q := by
  have h1 := findPeer_eq db nm p hnd hp
  have h2 := findPeer_eq db nm q hnd hq
  rw [h1] at h2
  exact h2

theorem section_mem (pub : Option String → String) (withPsk : Bool)
    (tuples : List (String × String × String)) (db : List (String × Peer))
    (owner : String) (self : Peer) (qn : String) (q : Peer)
    (hmem : (qn, q) ∈ db) (hne : qn ≠ owner)
    (hguard : (q.Endpoint.isSome || self.Endpoint.isSome) = true) :
    (qn, peerSectionLines withPsk tuples pub owner self qn q)
      ∈ (genDoc pub withPsk tuples db owner self).sections := by
  simp only [genDoc, List.mem_filterMap]
  refine ⟨(qn, q), List.mem_filter.mpr ⟨hmem, by simpa using hne⟩, ?_⟩
  rw [if_pos hguard]

theorem mem_sectionNames_iff (pub : Option String → String) (withPsk : Bool)
    (tuples : List (String × String × String)) (db : List (String × Peer))
    (owner : String) (self : Peer) (B : String) (pB : Peer)
    (hnd : (db.map Prod.fst).Nodup) (hmem : (B, pB) ∈ db) :
    (B ∈ (genDoc pub withPsk tuples db owner self).sections.map Prod.fst) ↔
      (B ≠ owner ∧ (pB.Endpoint.isSome || self.Endpoint.isSome) = true) := by
  constructor
  · intro hB
    simp only [genDoc, List.mem_map, List.mem_filterMap, List.mem_filter] at hB
    obtain ⟨⟨n2, lines⟩, ⟨⟨⟨qn, q⟩, ⟨hqdb, hqnne⟩, hif⟩, hfst⟩⟩ := hB
    by_cases hg : (q.Endpoint.isSome || self.Endpoint.isSome) = true
    · rw [if_pos hg] at hif
      injection hif with hif1
      injection hif1 with ha hb
      subst ha
      have hBqn : qn = B := by simpa using hfst
      subst hBqn
      have hq : q = pB := key_unique db hnd qn q pB hqdb hmem
      subst hq
      exact ⟨by simpa using hqnne, hg⟩
    · rw [if_neg hg] at hif
      exact absurd hif (by simp)
  · rintro ⟨hneq, hg⟩
    have := section_mem pub withPsk tuples db owner self B pB hmem hneq hg
    exact List.mem_map_of_mem Prod.fst this

/-- C6: reachability symmetry.  In a full generation run each peer's
document is produced by `genDoc`; for distinct peers `A`, `B`, a section
for `B` appears in `A`'s document exactly when a section for `A` appears
in `B`'s document — both governed by the shared predicate `B.Endpoint is
set or A.Endpoint is set` — and when neither peer has an endpoint the
pair is omitted from both documents (generation succeeds, nothing is
emitted for the pair). -/
theorem c6_reachability_symmetry (pub : Option String → String)
    (gen : Nat → String) (withPsk : Bool) (db : List (String × Peer))
    (A B : String) (pA pB : Peer)
    (hnd : (db.map Prod.fst).Nodup)
    (hA : (A, pA) ∈ db) (hB : (B, pB) ∈ db) (hne : A ≠ B) :
    ((A, genDoc pub withPsk
        (if withPsk then (calculate_psks gen (genconfigPeers db none) db).1
          else []) db A pA)
      ∈ genconfig pub gen db none withPsk) ∧
    (∀ tuples : List (String × String × String),
      (B ∈ (genDoc pub withPsk tuples db A pA).sections.map Prod.fst ↔
        A ∈ (genDoc pub withPsk tuples db B pB).sections.map Prod.fst) ∧
      (pA.Endpoint = none → pB.Endpoint = none →
        B ∉ (genDoc pub withPsk tuples db A pA).sections.map Prod.fst ∧
        A ∉ (genDoc pub withPsk tuples db B pB).sections.map Prod.fst)) := by
  constructor
  · simp only [genconfig, List.mem_map]
    refine ⟨A, ?_, ?_⟩
    · simp only [genconfigPeers]
      exact List.mem_map_of_mem Prod.fst hA
    · rw [findPeer_eq db A pA hnd hA]
  · intro tuples
    have hiffA := mem_sectionNames_iff pub withPsk tuples db A pA B pB hnd hB
    have hiffB := mem_sectionNames_iff pub withPsk tuples db B pB A pA hnd hA
    constructor
    · rw [hiffA, hiffB]
      constructor
      · rintro ⟨h1, h2⟩
        refine ⟨hne, ?_⟩
        rwa [Bool.or_comm]
      · rintro ⟨h1, h2⟩
        refine ⟨Ne.symm hne, ?_⟩
        rwa [Bool.or_comm]
    · intro hAe hBe
      constructor
      · rw [hiffA]
        rintro ⟨h1, h2⟩
        rw [hAe, hBe] at h2
        simp at h2
      · rw [hiffB]
        rintro ⟨h1, h2⟩
        rw [hAe, hBe] at h2
        simp at h2

/-- The spec's end-to-end example registry: `A` has an endpoint, `B` and
`C` do not. -/
def c6db : List (String × Peer) :=
  [("A", { Address := ["10.0.0.1/24"], Endpoint := some "a.example.com" }),
   ("B", { Address := ["10.0.0.2/24"] }),
   ("C", { Address := ["10.0.0.3/24"] })]

def c6pB : Peer := { Address := ["10.0.0.2/24"] }

def c6pC : Peer := { Address := ["10.0.0.3/24"] }

/-- Witness: `B` and `C` both lack endpoints, so neither's document holds
a section for the other. -/
theorem c6_reachability_symmetry_witness :
    ((c6db.map Prod.fst).Nodup ∧ ("B", c6pB) ∈ c6db ∧ ("C", c6pC) ∈ c6db) ∧
      ("C" ∉ (genDoc (fun _ => "PUB") false [] c6db ("B") c6pB).sections.map
          Prod.fst ∧
        "B" ∉ (genDoc (fun _ => "PUB") false [] c6db ("C") c6pC).sections.map
          Prod.fst) :=
  ⟨⟨by decide, by decide, by decide⟩,
    ((c6_reachability_symmetry (fun _ => "PUB") (fun _ => "G") false c6db
        ("B") ("C") c6pB c6pC (by decide) (by decide) (by decide)
        (by decide)).2 []).2 rfl rfl⟩

theorem parsePrefixLen_le (p : String) (v : Nat)
    (h : parsePrefixLen p = some v) : v ≤ 32 := by
  unfold parsePrefixLen at h
  split at h
  · split at h
    · rename_i hbound
      injection h with h1
      omega
    · exact absurd h (by simp)
  · exact absurd h (by simp)

theorem ip_network_spec (s : String) (x pl : Nat)
    (h : ip_network s = some (x, pl)) :
    pl ≤ 32 ∧ x % 2 ^ (32 - pl) = 0 := by
  unfold ip_network at h
  split at h
  · rename_i a ha
    cases hp : parseIPv4 a with
    | none =>
      rw [hp] at h
      exact absurd h (by simp)
    | some v =>
      rw [hp] at h
      simp only [Option.map_some'] at h
      injection h with h1
      injection h1 with hx hpl
      subst hx
      subst hpl
      exact ⟨by omega, Nat.mod_one v⟩
  · rename_i a p hsp
    split at h
    · rename_i xa pl0 hpa hpp
      injection h with h1
      injection h1 with hx hpl
      subst hx
      subst hpl
      exact ⟨parsePrefixLen_le p pl0 hpp, Nat.mul_mod_left _ _⟩
    · exact absurd h (by simp)
  · exact absurd h (by simp)

/-- C8: address normalization.  Every included peer section for `Q`
carries an `AllowedIPs` line whose entries are the host-bit-cleared
network form of each `Q.Address` subnet followed verbatim by `Q`'s own
`AllowedIPs` when present; and whenever a subnet parses, its rendered
form is built from the network address with the host bits cleared (the
value is divisible by `2^(32-prefix)`). -/
theorem c8_address_normalization (pub : Option String → String)
    (withPsk : Bool) (tuples : List (String × String × String))
    (db : List (String × Peer)) (owner : String) (self : Peer)
    (qn : String) (q : Peer)
    (hmem : (qn, q) ∈ db) (hne : qn ≠ owner)
    (hguard : (q.Endpoint.isSome || self.Endpoint.isSome) = true) :
    ((qn, peerSectionLines withPsk tuples pub owner self qn q)
        ∈ (genDoc pub withPsk tuples db owner self).sections) ∧
    (("AllowedIPs = " ++ (match q.AllowedIPs with
        | some extra => joinCS (q.Address.map ipNetRender ++ extra)
        | none => joinCS (q.Address.map ipNetRender)))
      ∈ peerSectionLines withPsk tuples pub owner self qn q) ∧
    (∀ s x pl, ip_network s = some (x, pl) →
      pl ≤ 32 ∧ x % 2 ^ (32 - pl) = 0 ∧
        ipNetRender s = ipStr x ++ "/" ++ natStr pl) := by
  refine ⟨section_mem pub withPsk tuples db owner self qn q hmem hne hguard,
    ?_, ?_⟩
  · simp [peerSectionLines]
  · intro s x pl h
    obtain ⟨h1, h2⟩ := ip_network_spec s x pl h
    refine ⟨h1, h2, ?_⟩
    simp [ipNetRender, h]

def c8self : Peer := { Address := ["10.0.0.1/24"] }

def c8q : Peer :=
  { Address := ["10.0.0.5/24"], Endpoint := some "b.example.com" }

def c8db : List (String × Peer) := [("A", c8self), ("B", c8q)]

/-- Witness: peer `B` with address `10.0.0.5/24` advertises
`AllowedIPs = 10.0.0.0/24` inside `A`'s document. -/
theorem c8_address_normalization_witness :
    ((("B", c8q) ∈ c8db ∧ ("B" : String) ≠ "A") ∧
        (c8q.Endpoint.isSome || c8self.Endpoint.isSome) = true) ∧
      (("AllowedIPs = 10.0.0.0/24"
          ∈ peerSectionLines false [] (fun _ => "PUB") ("A") c8self ("B") c8q) ∧
        ipNetRender ("10.0.0.5/24") = "10.0.0.0/24") :=
  ⟨⟨⟨by decide, by decide⟩, by decide⟩,
    ⟨(c8_address_normalization (fun _ => "PUB") false [] c8db ("A") c8self
        ("B") c8q (by decide) (by decide) (by decide)).2.1,
      by decide⟩⟩

/-- C10: the endpoint line.  Whenever `Q.Endpoint` is set, `Q`'s section
in any document carries the line `Endpoint = Q.Endpoint:Q.ListenPort`
with the port rendered by Python `format`; an absent `ListenPort` is
rendered as the literal text `None`, not the default 51820 and not an
omitted port. -/
theorem c10_endpoint_none_port (pub : Option String → String)
    (withPsk : Bool) (tuples : List (String × String × String))
    (db : List (String × Peer)) (owner : String) (self : Peer)
    (qn : String) (q : Peer) (e : String)
    (hmem : (qn, q) ∈ db) (hne : qn ≠ owner) (hep : q.Endpoint = some e) :
    ((qn, peerSectionLines withPsk tuples pub owner self qn q)
        ∈ (genDoc pub withPsk tuples db owner self).sections) ∧
    (("Endpoint = " ++ e ++ ":" ++ pyOptIntStr q.ListenPort)
        ∈ peerSectionLines withPsk tuples pub owner self qn q) ∧
    (q.ListenPort = none → pyOptIntStr q.ListenPort = "None") := by
  have hguard : (q.Endpoint.isSome || self.Endpoint.isSome) = true := by
    simp [hep]
  refine ⟨section_mem pub withPsk tuples db owner self qn q hmem hne hguard,
    ?_, ?_⟩
  · simp [peerSectionLines, hep]
  · intro h
    rw [h]
    rfl

def c10self : Peer := { Address := ["10.0.0.1/24"] }

def c10q : Peer :=
  { Address := ["10.0.0.2/24"], Endpoint := some "b.example.com" }

def c10db : List (String × Peer) := [("A", c10self), ("B", c10q)]

/-- Witness: `B` has an endpoint but no `ListenPort`, and its section in
`A`'s document carries the literal `:None` port. -/
theorem c10_endpoint_none_port_witness :
    ((("B", c10q) ∈ c10db ∧ ("B" : String) ≠ "A") ∧
        c10q.Endpoint = some "b.example.com" ∧ c10q.ListenPort = none) ∧
      ("Endpoint = b.example.com:None"
        ∈ peerSectionLines false [] (fun _ => "PUB") ("A") c10self ("B") c10q) :=
  ⟨⟨⟨by decide, by decide⟩, rfl, rfl⟩,
    (c10_endpoint_none_port (fun _ => "PUB") false [] c10db ("A") c10self
      ("B") c10q ("b.example.com") (by decide) (by decide) rfl).2.1⟩

/-- A line starts the `PresharedKey` key. -/
def isPskLine (l : String) : Bool := l.data.take 12 == ("PresharedKey").data

/-- A two-peer registry, both reachable, PSK mode relevant. -/
def c2db : List (String × Peer) :=
  [("A", { Address := ["10.0.0.1/24"], Endpoint := some "a.example.com",
           ListenPort := some 7, PrivateKey := some "PKA" }),
   ("B", { Address := ["10.0.0.2/24"], Endpoint := some "b.example.com",
           ListenPort := some 7, PrivateKey := some "PKB" })]

/-- C2 (code bug): with PSK mode enabled, generating for all peers puts
the pair key on every emitted section, but generating for the single
named peer `A` passes the one-element selection to `calculate_psks`,
whose pair list is then empty — so `A`'s document still contains `B`'s
section, with no `PresharedKey` line at all. -/
theorem c2_single_peer_psk_missing :
    ((genconfig (fun _ => "PUB") (fun k => "PSK" ++ natStr k) c2db
        (some ("A")) true).map
          (fun d => (d.1, d.2.sections.map
            (fun sec => (sec.1, sec.2.filter isPskLine))))
      = [("A", [("B", [])])]) ∧
    ((genconfig (fun _ => "PUB") (fun k => "PSK" ++ natStr k) c2db
        none true).map
          (fun d => (d.1, d.2.sections.map
            (fun sec => (sec.1, sec.2.filter isPskLine))))
      = [("A", [("B", ["PresharedKey = PSK0"])]),
         ("B", [("A", ["PresharedKey = PSK0"])])]) := by
  exact ⟨by decide, by decide⟩

end WgMeshconf
